import Mathlib

/-!
Shallow embedding of `minesweeper.py` (classes `Sentence` and `MinesweeperAI`).

Python objects are modelled as follows:
* a cell `(i, j)` is a pair of integers (`Int × Int`), since the code compares
  and stores tuples of Python ints;
* a Python `set` of cells is a `Finset Cell`;
* a `Sentence` object is a record of its two fields;
* `MinesweeperAI.knowledge` is a Python list of *mutable* `Sentence` objects.
  Mutation is visible through every alias (in particular through the `.copy()`
  snapshots the code iterates over), and `list.remove` removes the first
  element that compares `==` (structural equality, per `Sentence.__eq__`).
  We therefore keep an append-only `store` of every `Sentence` object ever
  constructed, indexed by an object id, and represent `knowledge` as the list
  `live` of ids.  A snapshot (`knowledge.copy()`) is then just a copy of the
  id list, and mutating an object mutates it for every alias, exactly as in
  Python.  Ids are created fresh (`store.length`), so no id occurs twice in
  `live`.
* Python iterates sets in an unspecified order; every such loop in the source
  performs order-independent updates (commuting erasures / insertions), so the
  embedding iterates sets in the canonical ascending order `cellLE`.
* unbounded `while` loops take a fuel parameter and return `none` when the
  fuel runs out; `list.remove` on a missing element (`ValueError`) and a bad
  list index (`IndexError`) also return `none`.  A `some` result is a normal,
  exception-free return of the Python code.
-/

abbrev Cell : Type := Int × Int

/-- Row-major (lexicographic) order on cells, used as the canonical iteration
order for Python sets of cells. -/
def cellLE (a b : Cell) : Prop := a.1 < b.1 ∨ (a.1 = b.1 ∧ a.2 ≤ b.2)

instance : DecidableRel cellLE := fun a b =>
  inferInstanceAs (Decidable (a.1 < b.1 ∨ (a.1 = b.1 ∧ a.2 ≤ b.2)))

instance : IsTrans Cell cellLE := ⟨by
  intro a b c h1 h2
  unfold cellLE at *
  omega⟩

instance : IsAntisymm Cell cellLE := ⟨by
  intro a b h1 h2
  unfold cellLE at *
  have h3 : a.1 = b.1 ∧ a.2 = b.2 := by omega
  exact Prod.ext h3.1 h3.2⟩

instance : IsTotal Cell cellLE := ⟨by
  intro a b
  unfold cellLE
  omega⟩

instance : IsRefl Cell cellLE := ⟨by
  intro a
  unfold cellLE
  omega⟩

/-- The canonical ascending list of the elements of a multiset of cells
(insertion sort, lifted through the quotient; well-defined because sorted
permutations of one another are equal). -/
def sortM (m : Multiset Cell) : List Cell :=
  Quot.liftOn m (fun l => List.insertionSort cellLE l) (fun l₁ l₂ h =>
    List.eq_of_perm_of_sorted
      ((List.perm_insertionSort cellLE l₁).trans
        ((Quotient.exact (Quotient.sound h)).trans
          (List.perm_insertionSort cellLE l₂).symm))
      (List.sorted_insertionSort cellLE l₁)
      (List.sorted_insertionSort cellLE l₂))

/-- The canonical ascending list of the elements of a finite set of cells. -/
def sortCells (s : Finset Cell) : List Cell := sortM s.val

/-- `class Sentence`: a set of board cells and a count of how many of those
cells are mines.  `__eq__` compares both fields, which is definitional
equality of this structure. -/
structure Sentence where
  cells : Finset Cell
  count : Int
deriving DecidableEq

/-- `Sentence.known_mines`: `self.cells` if `len(self.cells) == self.count`,
else the empty set. -/
def Sentence.known_mines (s : Sentence) : Finset Cell :=
  if (s.cells.card : Int) = s.count then s.cells else ∅

/-- `Sentence.known_safes`: `self.cells` if `self.count == 0`, else the empty
set. -/
def Sentence.known_safes (s : Sentence) : Finset Cell :=
  if s.count = 0 then s.cells else ∅

/-- `Sentence.mark_mine`: if `cell in self.cells`, decrement the count and
remove the cell. -/
def Sentence.mark_mine (c : Cell) (s : Sentence) : Sentence :=
  if c ∈ s.cells then ⟨s.cells.erase c, s.count - 1⟩ else s

/-- `Sentence.mark_safe`: if `cell in self.cells`, remove the cell; the count
is unchanged. -/
def Sentence.mark_safe (c : Cell) (s : Sentence) : Sentence :=
  if c ∈ s.cells then ⟨s.cells.erase c, s.count⟩ else s

/-- `class MinesweeperAI`: the inference controller.  `store` holds every
`Sentence` object ever constructed (indexed by object id) and `live` is
`self.knowledge` as a list of ids into `store`. -/
structure MinesweeperAI where
  height : Int
  width : Int
  moves_made : Finset Cell
  mines : Finset Cell
  safes : Finset Cell
  store : List Sentence
  live : List Nat
deriving DecidableEq

/-- `MinesweeperAI.__init__(height, width)`. -/
def mkAI (h w : Int) : MinesweeperAI :=
  ⟨h, w, ∅, ∅, ∅, [], []⟩

/-- Current field values of the `Sentence` object with the given id. -/
def MinesweeperAI.getS (st : MinesweeperAI) (id : Nat) : Sentence :=
  st.store.getD id ⟨∅, 0⟩

/-- Apply `f` to the objects whose id is in `live`, leaving all other store
entries untouched; `i` is the id of the first entry of the remaining store.
This is `for sentence in self.knowledge: <mutate sentence>` acting on the
object store (each id occurs at most once in `live`). -/
def cascadeFrom (f : Sentence → Sentence) (live : List Nat) :
    Nat → List Sentence → List Sentence
  | _, [] => []
  | i, s :: rest => (if i ∈ live then f s else s) :: cascadeFrom f live (i + 1) rest

/-- `MinesweeperAI.mark_mine`: add the cell to `self.mines` and forward
`Sentence.mark_mine` to every sentence in `self.knowledge`. -/
def MinesweeperAI.mark_mine (c : Cell) (st : MinesweeperAI) : MinesweeperAI :=
  { st with
    mines := insert c st.mines
    store := cascadeFrom (Sentence.mark_mine c) st.live 0 st.store }

/-- `MinesweeperAI.mark_safe`: add the cell to `self.safes` and forward
`Sentence.mark_safe` to every sentence in `self.knowledge`. -/
def MinesweeperAI.mark_safe (c : Cell) (st : MinesweeperAI) : MinesweeperAI :=
  { st with
    safes := insert c st.safes
    store := cascadeFrom (Sentence.mark_safe c) st.live 0 st.store }

/-- `self.knowledge.remove(v)`: remove the first list element whose current
value equals `v`; `none` models the `ValueError` when no element matches. -/
def removeFirstEq (store : List Sentence) : List Nat → Sentence → Option (List Nat)
  | [], _ => none
  | id :: rest, v =>
      if store.getD id ⟨∅, 0⟩ = v then some rest
      else (removeFirstEq store rest v).map (fun l => id :: l)

/-- One pass of `MinesweeperAI.remove_empties_and_safes_and_Mines` over the
snapshot `self.knowledge.copy()` (a list of object ids).  Each iteration
re-reads the current value of the snapshot object (it may have been mutated,
or even removed from `self.knowledge`, by earlier iterations). -/
def removeEmptiesAux : List Nat → Bool → MinesweeperAI → Option (Bool × MinesweeperAI)
  | [], acc, st => some (acc, st)
  | id :: rest, acc, st =>
      if (st.getS id).cells = ∅ then
        match removeFirstEq st.store st.live (st.getS id) with
        | none => none
        | some live' => removeEmptiesAux rest true { st with live := live' }
      else if ((st.getS id).cells.card : Int) = (st.getS id).count then
        -- `known_mines()` is truthy: mark every cell of the (copied) set as a
        -- mine, then `self.knowledge.remove(i_sentence)` using the sentence's
        -- current (post-cascade) value
        match
          removeFirstEq
            ((sortCells (st.getS id).cells).foldl (fun a c => a.mark_mine c) st).store
            ((sortCells (st.getS id).cells).foldl (fun a c => a.mark_mine c) st).live
            (((sortCells (st.getS id).cells).foldl (fun a c => a.mark_mine c) st).getS id) with
        | none => none
        | some live' =>
            removeEmptiesAux rest true
              { (sortCells (st.getS id).cells).foldl (fun a c => a.mark_mine c) st with
                live := live' }
      else if (st.getS id).count = 0 then
        -- `known_safes()` is truthy
        match
          removeFirstEq
            ((sortCells (st.getS id).cells).foldl (fun a c => a.mark_safe c) st).store
            ((sortCells (st.getS id).cells).foldl (fun a c => a.mark_safe c) st).live
            (((sortCells (st.getS id).cells).foldl (fun a c => a.mark_safe c) st).getS id) with
        | none => none
        | some live' =>
            removeEmptiesAux rest true
              { (sortCells (st.getS id).cells).foldl (fun a c => a.mark_safe c) st with
                live := live' }
      else
        removeEmptiesAux rest acc st

/-- `MinesweeperAI.remove_empties_and_safes_and_Mines`. -/
def MinesweeperAI.remove_empties_and_safes_and_Mines (st : MinesweeperAI) :
    Option (Bool × MinesweeperAI) :=
  removeEmptiesAux st.live false st

/-- Inner step of `update_mines_and_safes_in_KB` for one cell `c`:
`for sentence in self.knowledge.copy(): if c in sentence.cells: anyModifications
= True; sentence.mark_safe(c)`.  Note that the source calls `mark_safe` in
*both* the safes loop and the mines loop. -/
def updateOneCell (c : Cell) (p : Bool × MinesweeperAI) : Bool × MinesweeperAI :=
  (p.1 || p.2.live.any (fun id => decide (c ∈ (p.2.getS id).cells)),
   { p.2 with store := cascadeFrom (Sentence.mark_safe c) p.2.live 0 p.2.store })

/-- `MinesweeperAI.update_mines_and_safes_in_KB`: first loop over
`self.safes.copy()`, then over `self.mines.copy()`; both loops call
`sentence.mark_safe` (the mines loop does so in the source, in spite of its
comment).  Sets are iterated in canonical ascending order. -/
def MinesweeperAI.update_mines_and_safes_in_KB (st : MinesweeperAI) :
    Bool × MinesweeperAI :=
  (sortCells st.mines).foldl (fun p c => updateOneCell c p)
    ((sortCells st.safes).foldl (fun p c => updateOneCell c p) (false, st))

/-- `while (self.remove_empties_and_safes_and_Mines() or
self.update_mines_and_safes_in_KB()): pass` — note the short-circuit `or`. -/
def fixLoop : Nat → MinesweeperAI → Option MinesweeperAI
  | 0, _ => none
  | fuel + 1, st =>
      match st.remove_empties_and_safes_and_Mines with
      | none => none
      | some (b, st') =>
          if b then fixLoop fuel st'
          else if (st'.update_mines_and_safes_in_KB).1 then
            fixLoop fuel (st'.update_mines_and_safes_in_KB).2
          else some (st'.update_mines_and_safes_in_KB).2

/-- Python list indexing `l[i]` for an `int` index (negative indices count
from the end; out of range raises `IndexError`, modelled as `none`). -/
def pyGet {α : Type} (l : List α) (i : Int) : Option α :=
  if 0 ≤ i then l.get? i.toNat
  else if 0 ≤ i + l.length then l.get? (i + l.length).toNat
  else none

/-- The inner `while j < j_max` loop of the subset-inference block in
`add_knowledge`.  Returns the values of `(i, i_max, j, state)` when the loop
exits.  The branches are, in order: `i == j` (skip), structural equality
(remove the first sentence equal to `knowledge[j]`, adjust the bounds, and
retry with the same `j`), and proper subset (`knowledge[j].cells <
knowledge[i].cells`: append the difference sentence). -/
def expandInner : Nat → Int → Int → Int → Int → MinesweeperAI →
    Option (Int × Int × Int × MinesweeperAI)
  | 0, _, _, _, _, _ => none
  | fuel + 1, i, iMax, j, jMax, st =>
      if j < jMax then
        if i = j then expandInner fuel i iMax (j + 1) jMax st
        else
          match pyGet st.live i, pyGet st.live j with
          | some idA, some idB =>
              if st.getS idA = st.getS idB then
                match removeFirstEq st.store st.live (st.getS idB) with
                | none => none
                | some live' =>
                    expandInner fuel (if j < i then i - 1 else i) (iMax - 1) j (jMax - 1)
                      { st with live := live' }
              else if (st.getS idB).cells ⊆ (st.getS idA).cells ∧
                  (st.getS idB).cells ≠ (st.getS idA).cells then
                expandInner fuel i iMax (j + 1) jMax
                  { st with
                    store := st.store ++
                      [⟨(st.getS idA).cells \ (st.getS idB).cells,
                        (st.getS idA).count - (st.getS idB).count⟩]
                    live := st.live ++ [st.store.length] }
              else expandInner fuel i iMax (j + 1) jMax st
          | _, _ => none
      else some (i, iMax, j, st)

/-- The outer `while i < i_max` loop of the subset-inference block: each
iteration sets `j_max = len(self.knowledge)`, runs the inner loop (with `j`
carried over, never re-initialised), then increments `i`. -/
def expandOuter : Nat → Int → Int → Int → MinesweeperAI → Option MinesweeperAI
  | 0, _, _, _, _ => none
  | fuel + 1, i, iMax, j, st =>
      if i < iMax then
        match expandInner fuel i iMax j (st.live.length : Int) st with
        | none => none
        | some (i', iMax', j', st') => expandOuter fuel (i' + 1) iMax' j' st'
      else some st

/-- The eight neighbour candidates scanned by the two `for` loops (the cell
itself is skipped by the `continue`). -/
def neighborsList (cell : Cell) : List Cell :=
  [(cell.1 - 1, cell.2 - 1), (cell.1 - 1, cell.2), (cell.1 - 1, cell.2 + 1),
   (cell.1, cell.2 - 1), (cell.1, cell.2 + 1),
   (cell.1 + 1, cell.2 - 1), (cell.1 + 1, cell.2), (cell.1 + 1, cell.2 + 1)]

/-- `0 <= i < self.height and 0 <= j < self.width`. -/
def inBounds (h w : Int) (c : Cell) : Prop :=
  0 ≤ c.1 ∧ c.1 < h ∧ 0 ≤ c.2 ∧ c.2 < w

instance (h w : Int) : DecidablePred (inBounds h w) := fun c =>
  inferInstanceAs (Decidable (0 ≤ c.1 ∧ c.1 < h ∧ 0 ≤ c.2 ∧ c.2 < w))

/-- The in-bounds neighbours of `cell`. -/
def inBoundsNbrs (h w : Int) (cell : Cell) : Finset Cell :=
  ((neighborsList cell).filter (fun c => decide (inBounds h w c))).toFinset

/-- Steps 3–4 of `add_knowledge`, performed after the cell has been recorded
and marked safe: scan the in-bounds neighbours, exclude known mines (each
decrementing the effective count) and already-made moves, and append the
resulting sentence to the Knowledge Base. -/
def addSentence (cell : Cell) (count : Int) (st : MinesweeperAI) : MinesweeperAI :=
  { st with
    store := st.store ++
      [⟨(inBoundsNbrs st.height st.width cell).filter
          (fun c => c ∉ st.mines ∧ c ∉ st.moves_made),
        count - (((inBoundsNbrs st.height st.width cell).filter
          (fun c => c ∈ st.mines)).card : Int)⟩]
    live := st.live ++ [st.store.length] }

/-- `MinesweeperAI.add_knowledge(cell, count)`.  After the neighbour scan the
loop variables are left at `i = cell[0] + 1`, `j = cell[1] + 1`, and the
subset-inference block reuses them without re-initialisation.  The trailing
`self.print_aiStatus(...)` only writes to stdout and is omitted. -/
def MinesweeperAI.add_knowledge (fuel : Nat) (cell : Cell) (count : Int)
    (st : MinesweeperAI) : Option MinesweeperAI :=
  match
    fixLoop fuel
      (addSentence cell count
        (({ st with moves_made := insert cell st.moves_made }).mark_safe cell)) with
  | none => none
  | some st4 =>
      match expandOuter fuel (cell.1 + 1) (st4.live.length : Int) (cell.2 + 1) st4 with
      | none => none
      | some st5 => fixLoop fuel st5

/-- `MinesweeperAI.make_safe_move`: first cell of `self.safes` (canonical
order) not in `self.moves_made` and not in `self.mines`, or `None`.  The
state is returned unchanged (the method mutates nothing). -/
def MinesweeperAI.make_safe_move (st : MinesweeperAI) : Option Cell × MinesweeperAI :=
  ((sortCells st.safes).find?
      (fun c => decide (c ∉ st.moves_made) && decide (c ∉ st.mines)), st)

/-- All board cells in the row-major order scanned by
`make_random_move` (`for i in range(height): for j in range(width)`). -/
def allCells (h w : Int) : List Cell :=
  (List.range h.toNat).flatMap
    (fun (i : Nat) => (List.range w.toNat).map (fun (j : Nat) => ((i : Int), (j : Int))))

/-- `MinesweeperAI.make_random_move`: first board cell (row-major) not in
`self.moves_made` and not in `self.mines`, or `None`. -/
def MinesweeperAI.make_random_move (st : MinesweeperAI) : Option Cell :=
  (allCells st.height st.width).find?
    (fun c => decide (c ∉ st.moves_made) && decide (c ∉ st.mines))

/-- A sequence of `add_knowledge` calls. -/
def runObs (fuel : Nat) : List (Cell × Int) → MinesweeperAI → Option MinesweeperAI
  | [], st => some st
  | (c, n) :: rest, st =>
      match st.add_knowledge fuel c n with
      | none => none
      | some st' => runObs fuel rest st'

/-- A public-interface call on the controller. -/
inductive AIOp : Type
  | addK : Cell → Int → AIOp
  | mkMine : Cell → AIOp
  | mkSafe : Cell → AIOp

/-- A sequence of `add_knowledge` / `mark_mine` / `mark_safe` calls. -/
def runOps (fuel : Nat) : List AIOp → MinesweeperAI → Option MinesweeperAI
  | [], st => some st
  | AIOp.addK c n :: rest, st =>
      match st.add_knowledge fuel c n with
      | none => none
      | some st' => runOps fuel rest st'
  | AIOp.mkMine c :: rest, st => runOps fuel rest (st.mark_mine c)
  | AIOp.mkSafe c :: rest, st => runOps fuel rest (st.mark_safe c)

/-!  ### Concrete states used by individual scenarios  -/

/-- Final controller state of the run `add_knowledge((0,0),1)`;
`add_knowledge((1,0),1)` on an empty 3×3 controller. -/
def c1St : MinesweeperAI :=
  ⟨3, 3, {(0, 0), (1, 0)}, ∅, {(0, 0), (1, 0)},
   [⟨{(0, 1), (1, 1)}, 1⟩, ⟨{(0, 1), (1, 1), (2, 0), (2, 1)}, 1⟩], [0, 1]⟩

/-- A controller state whose Knowledge Base holds one Sentence
`({(0,1),(0,2)}, 1)` while `(0,1)` is already a confirmed mine. -/
def c2St : MinesweeperAI :=
  ⟨3, 3, ∅, {(0, 1)}, ∅, [⟨{(0, 1), (0, 2)}, 1⟩], [0]⟩

/-- Final controller state of the run `add_knowledge((0,0),4)` on an empty
2×2 controller. -/
def c3CexSt : MinesweeperAI :=
  ⟨2, 2, {(0, 0)}, ∅, {(0, 0)}, [⟨{(0, 1), (1, 0), (1, 1)}, 4⟩], [0]⟩

/-- Final controller state of the run `add_knowledge((1,1),1)` on an empty
3×3 controller. -/
def c3WitSt : MinesweeperAI :=
  ⟨3, 3, {(1, 1)}, ∅, {(1, 1)},
   [⟨{(0, 0), (0, 1), (0, 2), (1, 0), (1, 2), (2, 0), (2, 1), (2, 2)}, 1⟩], [0]⟩

/-- Final controller state of `mark_mine((0,0))`; `add_knowledge((2,2),0)`;
`mark_safe((1,1))` on an empty 3×3 controller. -/
def c4WitSt : MinesweeperAI :=
  ⟨3, 3, {(2, 2)}, {(0, 0)}, {(1, 1), (1, 2), (2, 1), (2, 2)}, [⟨∅, 0⟩], []⟩

/-- Final controller state of the run `add_knowledge((2,2),0)` on an empty
3×3 controller. -/
def c5St : MinesweeperAI :=
  ⟨3, 3, {(2, 2)}, ∅, {(1, 1), (1, 2), (2, 1), (2, 2)}, [⟨∅, 0⟩], []⟩

/-- Final controller state of the run `add_knowledge((4,4),1)`;
`add_knowledge((1,0),1)`; `add_knowledge((0,0),2)` on an empty 5×5
controller. -/
def c6St : MinesweeperAI :=
  ⟨5, 5, {(0, 0), (1, 0), (4, 4)}, {(0, 1), (1, 1)}, {(0, 0), (1, 0), (4, 4)},
   [⟨{(3, 3), (3, 4), (4, 3)}, 1⟩, ⟨{(2, 0), (2, 1)}, -1⟩, ⟨∅, 0⟩], [0, 1]⟩

/-- A controller state used to exercise `make_safe_move`. -/
def c9St : MinesweeperAI :=
  ⟨2, 2, {(0, 0)}, {(1, 1)}, {(0, 0), (0, 1), (1, 1)}, [], []⟩

/-- A fully played 1×1 board: `moves_made ∪ mines` covers every cell. -/
def c7StA : MinesweeperAI :=
  ⟨1, 1, {(0, 0)}, ∅, ∅, [], []⟩

/-- A 2×2 controller with one move made and one known mine. -/
def c7StB : MinesweeperAI :=
  ⟨2, 2, {(0, 0)}, {(0, 1)}, ∅, [], []⟩

/-- Two controller states agreeing on height, width, `moves_made` and
`mines` but differing in `safes` and in the Knowledge Base. -/
def c10StA : MinesweeperAI :=
  ⟨2, 2, {(0, 0)}, {(0, 1)}, ∅, [], []⟩

/-- See `c10StA`. -/
def c10StB : MinesweeperAI :=
  ⟨2, 2, {(0, 0)}, {(0, 1)}, {(9, 9)}, [⟨∅, 5⟩], [0]⟩

/-!  ### Soundness notions for the amended reachable-state invariants  -/

/-- The sentence `s` is true of the mine set `M`: exactly `s.count` of its
cells are mines. -/
def sentTrue (M : Finset Cell) (s : Sentence) : Prop :=
  ((s.cells ∩ M).card : Int) = s.count

/-- Soundness invariant tying a controller state to a fixed mine set `M` on
an `h × w` board: confirmed mines are real mines, confirmed safes are real
non-mines, recorded moves have been marked safe, every sentence object ever
constructed is true of `M`, live ids are valid, and no live sentence still
contains a confirmed mine. -/
structure SoundInv (M : Finset Cell) (h w : Int) (st : MinesweeperAI) : Prop where
  height_eq : st.height = h
  width_eq : st.width = w
  mines_sub : ∀ c ∈ st.mines, c ∈ M
  safes_not : ∀ c ∈ st.safes, c ∉ M
  moves_sub : ∀ c ∈ st.moves_made, c ∈ st.safes
  store_true : ∀ s ∈ st.store, sentTrue M s
  live_lt : ∀ id ∈ st.live, id < st.store.length
  live_no_mines : ∀ id ∈ st.live, (st.getS id).cells ∩ st.mines = ∅

/-- A consistent observation for mine set `M` on an `h × w` board: the
revealed cell is not a mine and the reported count is the number of mines
among its in-bounds neighbours. -/
def obsOK (M : Finset Cell) (h w : Int) (p : Cell × Int) : Prop :=
  p.1 ∉ M ∧ p.2 = ((inBoundsNbrs h w p.1 ∩ M).card : Int)

/-- A public call consistent with the mine set `M`: `add_knowledge` receives
a consistent observation, `mark_mine` a true mine, `mark_safe` a true
non-mine. -/
def opOK (M : Finset Cell) (h w : Int) : AIOp → Prop
  | AIOp.addK c n => obsOK M h w (c, n)
  | AIOp.mkMine c => c ∈ M
  | AIOp.mkSafe c => c ∉ M

instance (M : Finset Cell) (h w : Int) : DecidablePred (obsOK M h w) := fun p =>
  inferInstanceAs (Decidable (p.1 ∉ M ∧ p.2 = ((inBoundsNbrs h w p.1 ∩ M).card : Int)))

instance (M : Finset Cell) (h w : Int) : DecidablePred (opOK M h w) := fun op =>
  match op with
  | AIOp.addK c n =>
      inferInstanceAs (Decidable (c ∉ M ∧ n = ((inBoundsNbrs h w c ∩ M).card : Int)))
  | AIOp.mkMine c => inferInstanceAs (Decidable (c ∈ M))
  | AIOp.mkSafe c => inferInstanceAs (Decidable (c ∉ M))

/-!  ### Executable equality tests (kernel-reducible, used to evaluate runs)  -/

/-- Executable extensional equality of cell sets. -/
def finEqB (s t : Finset Cell) : Bool := decide (s ⊆ t) && decide (t ⊆ s)

/-- Executable equality of sentences. -/
def sentEqB (a b : Sentence) : Bool := finEqB a.cells b.cells && decide (a.count = b.count)

/-- Executable equality of sentence stores. -/
def storeEqB : List Sentence → List Sentence → Bool
  | [], [] => true
  | a :: as, b :: bs => sentEqB a b && storeEqB as bs
  | _, _ => false

/-- Executable equality of controller states. -/
def aiEqB (a b : MinesweeperAI) : Bool :=
  decide (a.height = b.height) && decide (a.width = b.width) &&
  finEqB a.moves_made b.moves_made && finEqB a.mines b.mines && finEqB a.safes b.safes &&
  storeEqB a.store b.store && decide (a.live = b.live)

/-- Executable equality of optional controller states. -/
def optAIEqB : Option MinesweeperAI → Option MinesweeperAI → Bool
  | none, none => true
  | some a, some b => aiEqB a b
  | _, _ => false

/-!  ### Helper lemmas about the object store  -/

theorem finEqB_iff {s t : Finset Cell} : finEqB s t = true ↔ s = t := by
  simp [finEqB, ← Finset.Subset.antisymm_iff]

theorem sentEqB_iff {a b : Sentence} : sentEqB a b = true ↔ a = b := by
  cases a; cases b
  simp [sentEqB, finEqB_iff, Sentence.mk.injEq]

theorem storeEqB_iff : ∀ {l m : List Sentence}, storeEqB l m = true ↔ l = m := by
  intro l
  induction l with
  | nil => intro m; cases m <;> simp [storeEqB]
  | cons a as ih =>
      intro m
      cases m with
      | nil => simp [storeEqB]
      | cons b bs => simp [storeEqB, sentEqB_iff, ih]

theorem aiEqB_iff {a b : MinesweeperAI} : aiEqB a b = true ↔ a = b := by
  cases a; cases b
  simp [aiEqB, finEqB_iff, storeEqB_iff, MinesweeperAI.mk.injEq, and_assoc]

theorem optAIEqB_iff : ∀ {o p : Option MinesweeperAI}, optAIEqB o p = true ↔ o = p := by
  intro o p
  cases o <;> cases p <;> simp [optAIEqB, aiEqB_iff]

theorem cascadeFrom_length (f : Sentence → Sentence) (live : List Nat) :
    ∀ (l : List Sentence) (i : Nat), (cascadeFrom f live i l).length = l.length := by
  intro l
  induction l with
  | nil => intro i; rfl
  | cons s rest ih => intro i; simp [cascadeFrom, ih]

theorem mem_cascadeFrom {f : Sentence → Sentence} {live : List Nat} :
    ∀ {l : List Sentence} {i : Nat} {s : Sentence},
      s ∈ cascadeFrom f live i l → (∃ t ∈ l, s = f t) ∨ s ∈ l := by
  intro l
  induction l with
  | nil => intro i s h; simp [cascadeFrom] at h
  | cons a rest ih =>
      intro i s h
      simp only [cascadeFrom, List.mem_cons] at h
      rcases h with h | h
      · by_cases ha : i ∈ live
        · simp [ha] at h; exact Or.inl ⟨a, List.mem_cons_self a rest, h⟩
        · simp [ha] at h; exact Or.inr (by simp [h])
      · rcases ih h with ⟨t, ht, hs⟩ | h
        · exact Or.inl ⟨t, List.mem_cons_of_mem a ht, hs⟩
        · exact Or.inr (List.mem_cons_of_mem a h)

theorem cascadeFrom_getD (f : Sentence → Sentence) (live : List Nat) :
    ∀ (l : List Sentence) (i k : Nat),
      (cascadeFrom f live i l).getD k ⟨∅, 0⟩ =
        if k < l.length ∧ (i + k) ∈ live then f (l.getD k ⟨∅, 0⟩)
        else l.getD k ⟨∅, 0⟩ := by
  intro l
  induction l with
  | nil => intro i k; simp [cascadeFrom]
  | cons a rest ih =>
      intro i k
      cases k with
      | zero => by_cases ha : i ∈ live <;> simp [cascadeFrom, ha]
      | succ k =>
          have := ih (i + 1) k
          simp only [cascadeFrom, List.getD_cons_succ, List.length_cons, this]
          have harith : i + 1 + k = i + (k + 1) := by omega
          rw [harith]
          by_cases hm : (i + (k + 1)) ∈ live <;> by_cases hk : k < rest.length <;>
            simp [hm, hk, Nat.succ_lt_succ_iff]

theorem cascadeFrom_eq_self (f : Sentence → Sentence) (live : List Nat) :
    ∀ (l : List Sentence) (i : Nat),
      (∀ k, k < l.length → (i + k) ∈ live → f (l.getD k ⟨∅, 0⟩) = l.getD k ⟨∅, 0⟩) →
      cascadeFrom f live i l = l := by
  intro l
  induction l with
  | nil => intro i _; rfl
  | cons a rest ih =>
      intro i h
      have h1 : (if i ∈ live then f a else a) = a := by
        by_cases ha : i ∈ live
        · simpa [ha] using h 0 (by simp) (by simpa using ha)
        · simp [ha]
      have h2 : cascadeFrom f live (i + 1) rest = rest :=
        ih (i + 1) (fun k hk hm => by
          have := h (k + 1) (by simpa using Nat.succ_lt_succ hk) (by
            have harith : i + 1 + k = i + (k + 1) := by omega
            rwa [harith] at hm)
          simpa using this)
      simp only [cascadeFrom, h1, h2]

theorem removeFirstEq_mem {store : List Sentence} :
    ∀ {l : List Nat} {v : Sentence} {l' : List Nat},
      removeFirstEq store l v = some l' → ∀ x ∈ l', x ∈ l := by
  intro l
  induction l with
  | nil => intro v l' h; simp [removeFirstEq] at h
  | cons id rest ih =>
      intro v l' h x hx
      rw [removeFirstEq] at h
      by_cases heq : store.getD id ⟨∅, 0⟩ = v
      · rw [if_pos heq] at h
        cases h
        exact List.mem_cons_of_mem id hx
      · rw [if_neg heq, Option.map_eq_some'] at h
        obtain ⟨l'', h1, h2⟩ := h
        subst h2
        rcases List.mem_cons.mp hx with h | h
        · simp [h]
        · exact List.mem_cons_of_mem id (ih h1 x h)

theorem getD_append_lt {α : Type} (d : α) :
    ∀ (l l' : List α) (k : Nat), k < l.length → (l ++ l').getD k d = l.getD k d := by
  intro l
  induction l with
  | nil => intro l' k h; simp at h
  | cons a rest ih =>
      intro l' k h
      cases k with
      | zero => simp
      | succ k => simpa using ih l' k (by simp at h; omega)

theorem getD_append_len {α : Type} (d : α) :
    ∀ (l : List α) (x : α), (l ++ [x]).getD l.length d = x := by
  intro l
  induction l with
  | nil => intro x; rfl
  | cons a rest ih => intro x; simp [ih x]

theorem getD_mem_or {α : Type} (d : α) :
    ∀ (l : List α) (k : Nat), l.getD k d ∈ l ∨ l.getD k d = d := by
  intro l
  induction l with
  | nil => intro k; simp
  | cons a rest ih =>
      intro k
      cases k with
      | zero => simp
      | succ k =>
          rcases ih k with h | h
          · exact Or.inl (by simpa using List.mem_cons_of_mem a h)
          · simp only [List.getD_cons_succ]
            exact Or.inr h

theorem pyGet_mem {α : Type} {l : List α} {i : Int} {x : α} :
    pyGet l i = some x → x ∈ l := by
  unfold pyGet
  split
  · exact fun h => List.get?_mem h
  · split
    · exact fun h => List.get?_mem h
    · intro h; cases h

/-!  ### C8: idempotence of the controller-level marking operations  -/

theorem sentence_mark_safe_idem (c : Cell) (s : Sentence) :
    (s.mark_safe c).mark_safe c = s.mark_safe c := by
  unfold Sentence.mark_safe
  by_cases h : c ∈ s.cells
  · simp [h]
  · simp [h]

theorem sentence_mark_mine_idem (c : Cell) (s : Sentence) :
    (s.mark_mine c).mark_mine c = s.mark_mine c := by
  unfold Sentence.mark_mine
  by_cases h : c ∈ s.cells
  · simp [h]
  · simp [h]

theorem cascadeFrom_idem (f : Sentence → Sentence) (hf : ∀ s, f (f s) = f s)
    (live : List Nat) :
    ∀ (l : List Sentence) (i : Nat),
      cascadeFrom f live i (cascadeFrom f live i l) = cascadeFrom f live i l := by
  intro l
  induction l with
  | nil => intro i; rfl
  | cons s rest ih =>
      intro i
      by_cases h : i ∈ live <;> simp [cascadeFrom, h, hf, ih]

/-- C8: the Controller's `mark_safe` and `mark_mine` are idempotent — calling
either twice on the same cell yields exactly the same Controller state
(including the Knowledge Base) as calling it once. -/
theorem c8_mark_idempotent (st : MinesweeperAI) (c : Cell) :
    (st.mark_safe c).mark_safe c = st.mark_safe c ∧
    (st.mark_mine c).mark_mine c = st.mark_mine c := by
  constructor
  · simp [MinesweeperAI.mark_safe, Finset.insert_idem,
      cascadeFrom_idem (Sentence.mark_safe c) (sentence_mark_safe_idem c)]
  · simp [MinesweeperAI.mark_mine, Finset.insert_idem,
      cascadeFrom_idem (Sentence.mark_mine c) (sentence_mark_mine_idem c)]

/-!  ### C1, C2: the two defective phases of `add_knowledge`  -/

/-- C1: refuted.  After the reachable two-call run recorded in `c1St`, the
Knowledge Base holds two distinct live Constraints whose cell sets are in a
strict-subset relation (`{(0,1),(1,1)} ⊂ {(0,1),(1,1),(2,0),(2,1)}`), yet no
difference Constraint `({(2,0),(2,1)}, 0)` was derived (the expansion loop
starts at the leftover neighbour-scan indices `i = 2`, `j = 1` with only two
sentences, so the whole pass is skipped), and neither `(2,0)` nor `(2,1)`
was resolved as safe. -/
theorem c1_expansion_skipped :
    runObs 30 [((0, 0), 1), ((1, 0), 1)] (mkAI 3 3) = some c1St ∧
    c1St.live = [0, 1] ∧
    (c1St.getS 0).cells ⊆ (c1St.getS 1).cells ∧
    ¬ ((c1St.getS 1).cells ⊆ (c1St.getS 0).cells) ∧
    (∀ id ∈ c1St.live, c1St.getS id ≠ ⟨{(2, 0), (2, 1)}, 0⟩) ∧
    (2, 0) ∉ c1St.safes ∧ (2, 1) ∉ c1St.safes := by
  refine ⟨optAIEqB_iff.mp (by rfl), by decide, by decide, by decide, ?_, by decide, by decide⟩
  intro id hid h
  have hc := congrArg Sentence.count h
  have hid' : id = 0 ∨ id = 1 := by simpa [c1St] using hid
  rcases hid' with h0 | h1
  · subst h0; exact absurd hc (by decide)
  · subst h1; exact absurd hc (by decide)

/-- C2: refuted mechanism.  On the state `c2St`, whose Knowledge Base holds
the live Constraint `({(0,1),(0,2)}, 1)` with `(0,1)` a confirmed mine,
`update_mines_and_safes_in_KB` propagates the mine with the *safe*-marking
operation: the cell is removed but the count stays 1, whereas the
mine-marking operation `Sentence.mark_mine` would have produced
`({(0,2)}, 0)`. -/
theorem c2_mine_propagated_without_decrement :
    ((c2St.update_mines_and_safes_in_KB).2.getS 0 = ⟨{(0, 2)}, 1⟩) ∧
    (Sentence.mark_mine (0, 1) (c2St.getS 0) = ⟨{(0, 2)}, 0⟩) ∧
    (c2St.update_mines_and_safes_in_KB).2.getS 0 ≠
      Sentence.mark_mine (0, 1) (c2St.getS 0) := by
  have h1 : (c2St.update_mines_and_safes_in_KB).2.getS 0 = ⟨{(0, 2)}, 1⟩ :=
    sentEqB_iff.mp (by rfl)
  have h2 : Sentence.mark_mine (0, 1) (c2St.getS 0) = ⟨{(0, 2)}, 0⟩ :=
    sentEqB_iff.mp (by rfl)
  refine ⟨h1, h2, ?_⟩
  rw [h1, h2]
  intro h
  exact absurd (congrArg Sentence.count h) (by decide)

/-!  ### C3, C4: the claimed reachable-state invariants fail as stated  -/

/-- C3: counterexample.  The state `c3CexSt` is reached by the single call
`add_knowledge((0,0), 4)` on an empty 2×2 controller, and its only live
Constraint is `({(0,1),(1,0),(1,1)}, 4)` with `4 > 3 = |cells|`. -/
theorem c3_counterexample :
    runObs 30 [((0, 0), 4)] (mkAI 2 2) = some c3CexSt ∧
    0 ∈ c3CexSt.live ∧
    ¬ ((c3CexSt.getS 0).count ≤ ((c3CexSt.getS 0).cells.card : Int)) := by
  refine ⟨optAIEqB_iff.mp (by rfl), by decide, by decide⟩

/-- C4: counterexample.  Calling `mark_mine((0,0))` and then
`mark_safe((0,0))` on a fresh controller is a sequence of public calls after
which `(0,0)` lies in both `mines` and `safes`. -/
theorem c4_counterexample :
    (((mkAI 3 3).mark_mine (0, 0)).mark_safe (0, 0)).mines ∩
      (((mkAI 3 3).mark_mine (0, 0)).mark_safe (0, 0)).safes = {(0, 0)} ∧
    (0, 0) ∈ (((mkAI 3 3).mark_mine (0, 0)).mark_safe (0, 0)).mines ∩
      (((mkAI 3 3).mark_mine (0, 0)).mark_safe (0, 0)).safes := by
  refine ⟨finEqB_iff.mp (by rfl), by decide⟩

/-!  ### C5: the single-observation 3×3 scenario  -/

/-- C5: counterexample.  After the single call `add_knowledge((2,2), 0)` on
an empty 3×3 controller, the cell `(0,1)` (which is distinct from `(0,0)`)
is not in `safes` — one observation cannot resolve cells outside the
revealed cell's neighbourhood. -/
theorem c5_counterexample :
    runObs 30 [((2, 2), 0)] (mkAI 3 3) = some c5St ∧
    (0, 1) ∉ c5St.safes := by
  refine ⟨optAIEqB_iff.mp (by rfl), by decide⟩

/-- C5: amended.  After `add_knowledge((2,2), 0)` on an empty 3×3
controller, `safes` consists exactly of the revealed cell and its three
in-bounds neighbours — `{(1,1),(1,2),(2,1),(2,2)}` — and `(0,0)` is not in
`safes`. -/
theorem c5_amended :
    runObs 30 [((2, 2), 0)] (mkAI 3 3) = some c5St ∧
    c5St.safes = {(1, 1), (1, 2), (2, 1), (2, 2)} ∧
    (0, 0) ∉ c5St.safes := by
  refine ⟨optAIEqB_iff.mp (by rfl), finEqB_iff.mp (by rfl), by decide⟩

/-!  ### C6: out-of-invariant Constraints are kept, not surfaced  -/

/-- C6: counterexample.  The three-call run recorded in `c6St` makes the
saturation phase drive the Constraint over `{(2,0),(2,1)}` to count `-1`
(two cells it contained were marked as mines by another Constraint); the
call nevertheless returns normally (`some`), with the out-of-invariant
Constraint still live — no error is surfaced. -/
theorem c6_counterexample :
    runObs 40 [((4, 4), 1), ((1, 0), 1), ((0, 0), 2)] (mkAI 5 5) = some c6St ∧
    1 ∈ c6St.live ∧ (c6St.getS 1).count < 0 := by
  refine ⟨optAIEqB_iff.mp (by rfl), by decide, by decide⟩

/-- C6: amended.  When saturation produces a Constraint whose count is out
of the invariant range, the Constraint is retained in the Knowledge Base
exactly as produced — neither clamped nor repaired — and execution completes
normally without signalling any failure: here the live Constraint
`({(2,0),(2,1)}, -1)` survives to the final state. -/
theorem c6_amended :
    runObs 40 [((4, 4), 1), ((1, 0), 1), ((0, 0), 2)] (mkAI 5 5) = some c6St ∧
    c6St.live = [0, 1] ∧
    c6St.getS 1 = ⟨{(2, 0), (2, 1)}, -1⟩ := by
  refine ⟨optAIEqB_iff.mp (by rfl), by decide, sentEqB_iff.mp (by rfl)⟩

/-!  ### C7, C9, C10: the two move-selection queries  -/

theorem mem_sortM {m : Multiset Cell} {a : Cell} : a ∈ sortM m ↔ a ∈ m :=
  Quotient.inductionOn m (fun l => by
    simp only [sortM, Quot.liftOn, Multiset.quot_mk_to_coe, Multiset.mem_coe]
    exact (List.perm_insertionSort cellLE l).mem_iff)

theorem mem_sortCells {s : Finset Cell} {a : Cell} : a ∈ sortCells s ↔ a ∈ s :=
  mem_sortM.trans Finset.mem_def.symm

/-- C9: `make_safe_move` mutates nothing, returns `None` exactly when
`safes \ moves_made \ mines` is empty, and otherwise returns a member of
that set. -/
theorem c9_make_safe_move (st : MinesweeperAI) :
    (st.make_safe_move).2 = st ∧
    ((st.make_safe_move).1 = none ↔
      ∀ c ∈ st.safes, c ∈ st.moves_made ∨ c ∈ st.mines) ∧
    (∀ c, (st.make_safe_move).1 = some c →
      c ∈ st.safes ∧ c ∉ st.moves_made ∧ c ∉ st.mines) := by
  refine ⟨rfl, ?_, ?_⟩
  · show ((sortCells st.safes).find? _ = none) ↔ _
    rw [List.find?_eq_none]
    constructor
    · intro hall c hc
      have := hall c (mem_sortCells.mpr hc)
      simp only [Bool.and_eq_true, decide_eq_true_eq, not_and_or, not_not] at this
      exact this
    · intro hcov x hx
      have := hcov x (mem_sortCells.mp hx)
      simp only [Bool.and_eq_true, decide_eq_true_eq, not_and_or, not_not]
      exact this
  · intro c h
    have hp := List.find?_some h
    have hm := List.mem_of_find?_eq_some h
    simp only [Bool.and_eq_true, decide_eq_true_eq] at hp
    exact ⟨mem_sortCells.mp hm, hp.1, hp.2⟩

/-- C9 witness: on the concrete state `c9St` the query returns `(0,1)`, a
known-safe unplayed non-mine cell, and leaves the state unchanged. -/
theorem c9_make_safe_move_witness :
    (c9St.make_safe_move).2 = c9St ∧
    ((0, 1) ∈ c9St.safes ∧ (0, 1) ∉ c9St.moves_made ∧ (0, 1) ∉ c9St.mines) :=
  ⟨(c9_make_safe_move c9St).1, (c9_make_safe_move c9St).2.2 (0, 1) (by rfl)⟩

theorem mem_allCells {h w : Int} {c : Cell} :
    c ∈ allCells h w ↔ inBounds h w c := by
  constructor
  · intro hc
    rw [allCells, List.mem_flatMap] at hc
    obtain ⟨i, hi, hc⟩ := hc
    rw [List.mem_map] at hc
    obtain ⟨j, hj, hc⟩ := hc
    rw [List.mem_range] at hi hj
    subst hc
    exact ⟨by show (0 : Int) ≤ (i : Int); omega,
           by show (i : Int) < h; omega,
           by show (0 : Int) ≤ (j : Int); omega,
           by show (j : Int) < w; omega⟩
  · intro hb
    obtain ⟨h1, h2, h3, h4⟩ := hb
    rw [allCells, List.mem_flatMap]
    refine ⟨c.1.toNat, ?_, ?_⟩
    · rw [List.mem_range]; omega
    · rw [List.mem_map]
      refine ⟨c.2.toNat, ?_, ?_⟩
      · rw [List.mem_range]; omega
      · have e1 : (c.1.toNat : Int) = c.1 := Int.toNat_of_nonneg h1
        have e2 : (c.2.toNat : Int) = c.2 := Int.toNat_of_nonneg h3
        rw [Prod.ext_iff]
        exact ⟨e1, e2⟩

/-- C7: `make_random_move` returns a board cell outside
`moves_made ∪ mines` whenever one exists, and returns the `None` sentinel
exactly when `moves_made ∪ mines` covers the whole board. -/
theorem c7_make_random_move (st : MinesweeperAI) :
    (st.make_random_move = none ↔
      ∀ c, inBounds st.height st.width c → c ∈ st.moves_made ∨ c ∈ st.mines) ∧
    (∀ c, st.make_random_move = some c →
      inBounds st.height st.width c ∧ c ∉ st.moves_made ∧ c ∉ st.mines) := by
  constructor
  · show ((allCells st.height st.width).find? _ = none) ↔ _
    rw [List.find?_eq_none]
    constructor
    · intro hall c hc
      have := hall c (mem_allCells.mpr hc)
      simp only [Bool.and_eq_true, decide_eq_true_eq, not_and_or, not_not] at this
      exact this
    · intro hcov x hx
      have := hcov x (mem_allCells.mp hx)
      simp only [Bool.and_eq_true, decide_eq_true_eq, not_and_or, not_not]
      exact this
  · intro c h
    have hp := List.find?_some h
    have hm := List.mem_of_find?_eq_some h
    simp only [Bool.and_eq_true, decide_eq_true_eq] at hp
    exact ⟨mem_allCells.mp hm, hp.1, hp.2⟩

/-- C7 witness: on the fully covered 1×1 board `c7StA` the query returns
the sentinel, and on the 2×2 state `c7StB` it returns the eligible cell
`(1,0)`. -/
theorem c7_make_random_move_witness :
    c7StA.make_random_move = none ∧
    (inBounds c7StB.height c7StB.width (1, 0) ∧
      (1, 0) ∉ c7StB.moves_made ∧ (1, 0) ∉ c7StB.mines) :=
  ⟨(c7_make_random_move c7StA).1.mpr (fun c hc => by
      have e1 : c7StA.height = 1 := rfl
      have e2 : c7StA.width = 1 := rfl
      rw [e1, e2] at hc
      obtain ⟨a1, a2, a3, a4⟩ := hc
      have h1 : c = ((0 : Int), (0 : Int)) := Prod.ext (by omega) (by omega)
      rw [h1]
      exact Or.inl (by decide)),
   (c7_make_random_move c7StB).2 (1, 0) (by rfl)⟩

theorem find?_min {p : Cell → Bool} :
    ∀ {l : List Cell} {c : Cell}, List.Pairwise cellLE l → l.find? p = some c →
      ∀ c' ∈ l, p c' = true → cellLE c c' := by
  intro l
  induction l with
  | nil => intro c _ h; simp at h
  | cons a t ih =>
      intro c hpw hf c' hc' hp
      cases hpa : p a with
      | true =>
          rw [List.find?_cons_of_pos _ hpa] at hf
          cases hf
          rcases List.mem_cons.mp hc' with rfl | h
          · exact refl_of cellLE c'
          · exact (List.pairwise_cons.mp hpw).1 c' h
      | false =>
          rw [List.find?_cons_of_neg _ (by simp [hpa])] at hf
          rcases List.mem_cons.mp hc' with rfl | h
          · rw [hp] at hpa; cases hpa
          · exact ih (List.pairwise_cons.mp hpw).2 hf c' h hp

theorem pairwise_flatMap {α : Type} {R : Cell → Cell → Prop} (l : List α)
    (f : α → List Cell)
    (h1 : List.Pairwise (fun a a' => ∀ b ∈ f a, ∀ b' ∈ f a', R b b') l)
    (h2 : ∀ a ∈ l, List.Pairwise R (f a)) :
    List.Pairwise R (l.flatMap f) := by
  induction l with
  | nil => simp
  | cons a t ih =>
      rw [List.flatMap_cons, List.pairwise_append]
      refine ⟨h2 a (by simp), ?_, ?_⟩
      · exact ih (List.pairwise_cons.mp h1).2 (fun x hx => h2 x (List.mem_cons_of_mem a hx))
      · intro b hb b' hb'
        rw [List.mem_flatMap] at hb'
        obtain ⟨a', ha', hb'2⟩ := hb'
        exact (List.pairwise_cons.mp h1).1 a' ha' b hb b' hb'2

theorem pairwise_allCells (h w : Int) : List.Pairwise cellLE (allCells h w) := by
  unfold allCells
  refine pairwise_flatMap _ _ ?_ ?_
  · refine (List.pairwise_lt_range h.toNat).imp ?_
    intro i i' hlt b hb b' hb'
    rw [List.mem_map] at hb hb'
    obtain ⟨j, _, rfl⟩ := hb
    obtain ⟨j', _, rfl⟩ := hb'
    refine Or.inl ?_
    show (i : Int) < (i' : Int)
    exact_mod_cast hlt
  · intro i _
    rw [List.pairwise_map]
    refine (List.pairwise_lt_range w.toNat).imp ?_
    intro j j' hlt
    refine Or.inr ⟨rfl, ?_⟩
    show (j : Int) ≤ (j' : Int)
    exact_mod_cast Nat.le_of_lt hlt

/-- C10: `make_random_move` is deterministic — it depends only on `height`,
`width`, `moves_made` and `mines`, and when it returns a cell that cell is
the row-major-least board cell outside `moves_made ∪ mines`. -/
theorem c10_make_random_move_deterministic (st st' : MinesweeperAI)
    (hh : st.height = st'.height) (hw : st.width = st'.width)
    (hm : st.moves_made = st'.moves_made) (hn : st.mines = st'.mines) :
    st.make_random_move = st'.make_random_move ∧
    (∀ c, st.make_random_move = some c →
      inBounds st.height st.width c ∧ c ∉ st.moves_made ∧ c ∉ st.mines ∧
      ∀ c', inBounds st.height st.width c' → c' ∉ st.moves_made →
        c' ∉ st.mines → cellLE c c') := by
  constructor
  · simp only [MinesweeperAI.make_random_move, hh, hw, hm, hn]
  · intro c h
    obtain ⟨h1, h2, h3⟩ := (c7_make_random_move st).2 c h
    refine ⟨h1, h2, h3, ?_⟩
    intro c' hb hmov hmin
    exact find?_min (pairwise_allCells _ _) h c' (mem_allCells.mpr hb)
      (by simp [hmov, hmin])

/-- C10 witness: two controllers agreeing on the four relevant fields but
with different `safes` and Knowledge Bases produce the same move, and the
returned cell `(1,0)` is row-major-least among eligible cells (in
particular it precedes the other eligible cell `(1,1)`). -/
theorem c10_witness :
    c10StA.make_random_move = c10StB.make_random_move ∧ cellLE (1, 0) (1, 1) :=
  ⟨(c10_make_random_move_deterministic c10StA c10StB rfl rfl rfl rfl).1,
   ((c10_make_random_move_deterministic c10StA c10StB rfl rfl rfl rfl).2
      (1, 0) (by rfl)).2.2.2 (1, 1) (by decide) (by decide) (by decide)⟩

/-!  ### C3, C4 amended: soundness invariant, sentence-level lemmas  -/

theorem sentTrue_mark_safe {M : Finset Cell} {c : Cell} {s : Sentence}
    (hc : c ∉ M) (h : sentTrue M s) : sentTrue M (s.mark_safe c) := by
  unfold Sentence.mark_safe
  by_cases hm : c ∈ s.cells
  · simp only [hm, if_true]
    unfold sentTrue at *
    have he : s.cells.erase c ∩ M = s.cells ∩ M := by
      ext a
      simp only [Finset.mem_inter, Finset.mem_erase]
      constructor
      · rintro ⟨⟨_, ha⟩, hM⟩
        exact ⟨ha, hM⟩
      · rintro ⟨ha, hM⟩
        exact ⟨⟨fun he2 => hc (he2 ▸ hM), ha⟩, hM⟩
    rw [he]
    exact h
  · simp only [hm, if_false]
    exact h

theorem sentTrue_mark_mine {M : Finset Cell} {c : Cell} {s : Sentence}
    (hc : c ∈ M) (h : sentTrue M s) : sentTrue M (s.mark_mine c) := by
  unfold Sentence.mark_mine
  by_cases hm : c ∈ s.cells
  · simp only [hm, if_true]
    unfold sentTrue at *
    have h1 : s.cells.erase c ∩ M = (s.cells ∩ M).erase c := by
      ext a
      simp only [Finset.mem_inter, Finset.mem_erase]
      tauto
    have h2 : c ∈ s.cells ∩ M := Finset.mem_inter.mpr ⟨hm, hc⟩
    have h3 : 1 ≤ (s.cells ∩ M).card := Finset.card_pos.mpr ⟨c, h2⟩
    rw [h1, Finset.card_erase_of_mem h2]
    show (((s.cells ∩ M).card - 1 : Nat) : Int) = s.count - 1
    omega
  · simp only [hm, if_false]
    exact h

theorem mark_safe_cells_subset (c : Cell) (s : Sentence) :
    (s.mark_safe c).cells ⊆ s.cells := by
  unfold Sentence.mark_safe
  by_cases hm : c ∈ s.cells <;> simp [hm, Finset.erase_subset]

theorem mark_mine_cells_subset (c : Cell) (s : Sentence) :
    (s.mark_mine c).cells ⊆ s.cells := by
  unfold Sentence.mark_mine
  by_cases hm : c ∈ s.cells <;> simp [hm, Finset.erase_subset]

theorem mark_mine_not_mem (c : Cell) (s : Sentence) : c ∉ (s.mark_mine c).cells := by
  unfold Sentence.mark_mine
  by_cases hm : c ∈ s.cells <;> simp [hm, Finset.not_mem_erase]

theorem getS_true {M : Finset Cell} {h w : Int} {st : MinesweeperAI}
    (inv : SoundInv M h w st) (id : Nat) : sentTrue M (st.getS id) := by
  rcases getD_mem_or ⟨∅, 0⟩ st.store id with hm | hd
  · exact inv.store_true _ hm
  · show sentTrue M (st.store.getD id ⟨∅, 0⟩)
    rw [hd]
    unfold sentTrue
    simp

theorem getD_len_le {α : Type} (d : α) :
    ∀ (l : List α) (k : Nat), l.length ≤ k → l.getD k d = d := by
  intro l
  induction l with
  | nil => intro k _; simp
  | cons a rest ih =>
      intro k hk
      cases k with
      | zero => simp at hk
      | succ k => simpa using ih k (by simpa using hk)

theorem store_true_cascade {M : Finset Cell} {f : Sentence → Sentence}
    (hf : ∀ s, sentTrue M s → sentTrue M (f s)) {live : List Nat}
    {store : List Sentence} (h : ∀ s ∈ store, sentTrue M s) :
    ∀ s ∈ cascadeFrom f live 0 store, sentTrue M s := by
  intro s hs
  rcases mem_cascadeFrom hs with ⟨t, ht, rfl⟩ | hs'
  · exact hf t (h t ht)
  · exact h s hs'

theorem getD_cascade (f : Sentence → Sentence) (live : List Nat)
    (store : List Sentence) (id : Nat) :
    (cascadeFrom f live 0 store).getD id ⟨∅, 0⟩ =
      if id < store.length ∧ id ∈ live then f (store.getD id ⟨∅, 0⟩)
      else store.getD id ⟨∅, 0⟩ := by
  have h := cascadeFrom_getD f live store 0 id
  simpa using h

theorem live_no_mines_cascade {f : Sentence → Sentence}
    (hf : ∀ s, (f s).cells ⊆ s.cells) {live : List Nat} {store : List Sentence}
    {mines : Finset Cell}
    (h : ∀ id ∈ live, (store.getD id ⟨∅, 0⟩).cells ∩ mines = ∅) :
    ∀ id ∈ live, ((cascadeFrom f live 0 store).getD id ⟨∅, 0⟩).cells ∩ mines = ∅ := by
  intro id hid
  rw [getD_cascade]
  by_cases hcase : id < store.length ∧ id ∈ live
  · rw [if_pos hcase]
    have hsub : (f (store.getD id ⟨∅, 0⟩)).cells ∩ mines ⊆
        (store.getD id ⟨∅, 0⟩).cells ∩ mines :=
      Finset.inter_subset_inter (hf _) (Finset.Subset.refl _)
    rw [h id hid] at hsub
    exact Finset.subset_empty.mp hsub
  · rw [if_neg hcase]
    exact h id hid

theorem inv_cascade_safe {M : Finset Cell} {h w : Int} {st : MinesweeperAI}
    {c : Cell} (hc : c ∉ M) (inv : SoundInv M h w st) :
    SoundInv M h w { st with store := cascadeFrom (Sentence.mark_safe c) st.live 0 st.store } := by
  constructor
  · exact inv.height_eq
  · exact inv.width_eq
  · exact inv.mines_sub
  · exact inv.safes_not
  · exact inv.moves_sub
  · exact store_true_cascade (fun s => sentTrue_mark_safe hc) inv.store_true
  · intro id hid
    show id < (cascadeFrom (Sentence.mark_safe c) st.live 0 st.store).length
    rw [cascadeFrom_length]
    exact inv.live_lt id hid
  · intro id hid
    show ((cascadeFrom (Sentence.mark_safe c) st.live 0 st.store).getD id ⟨∅, 0⟩).cells ∩
        st.mines = ∅
    exact live_no_mines_cascade (mark_safe_cells_subset c) inv.live_no_mines id hid

theorem inv_mark_safe {M : Finset Cell} {h w : Int} {st : MinesweeperAI}
    {c : Cell} (hc : c ∉ M) (inv : SoundInv M h w st) : SoundInv M h w (st.mark_safe c) := by
  have inv2 := inv_cascade_safe hc inv
  constructor
  · exact inv2.height_eq
  · exact inv2.width_eq
  · exact inv2.mines_sub
  · intro x hx
    rcases Finset.mem_insert.mp hx with rfl | hx'
    · exact hc
    · exact inv.safes_not x hx'
  · intro x hx
    exact Finset.mem_insert_of_mem (inv.moves_sub x hx)
  · exact inv2.store_true
  · exact inv2.live_lt
  · exact inv2.live_no_mines

theorem inv_mark_mine {M : Finset Cell} {h w : Int} {st : MinesweeperAI}
    {c : Cell} (hc : c ∈ M) (inv : SoundInv M h w st) : SoundInv M h w (st.mark_mine c) := by
  constructor
  · exact inv.height_eq
  · exact inv.width_eq
  · intro x hx
    rcases Finset.mem_insert.mp hx with rfl | hx'
    · exact hc
    · exact inv.mines_sub x hx'
  · exact inv.safes_not
  · exact inv.moves_sub
  · exact store_true_cascade (fun s => sentTrue_mark_mine hc) inv.store_true
  · intro id hid
    show id < (cascadeFrom (Sentence.mark_mine c) st.live 0 st.store).length
    rw [cascadeFrom_length]
    exact inv.live_lt id hid
  · intro id hid
    show ((cascadeFrom (Sentence.mark_mine c) st.live 0 st.store).getD id ⟨∅, 0⟩).cells ∩
        insert c st.mines = ∅
    rw [getD_cascade]
    by_cases hcase : id < st.store.length ∧ id ∈ st.live
    · rw [if_pos hcase]
      rw [Finset.eq_empty_iff_forall_not_mem]
      intro a ha
      rw [Finset.mem_inter, Finset.mem_insert] at ha
      obtain ⟨hacell, heq | hamine⟩ := ha
      · exact mark_mine_not_mem c _ (heq ▸ hacell)
      · have h0 := inv.live_no_mines id hid
        have h1 : a ∈ (st.getS id).cells := mark_mine_cells_subset c _ hacell
        rw [Finset.eq_empty_iff_forall_not_mem] at h0
        exact h0 a (Finset.mem_inter.mpr ⟨h1, hamine⟩)
    · rw [if_neg hcase]
      have hlen : st.store.length ≤ id := by
        rcases Nat.lt_or_ge id st.store.length with hlt | hge
        · exact absurd ⟨hlt, hid⟩ hcase
        · exact hge
      rw [getD_len_le _ _ _ hlen]
      simp

/-!  ### C3, C4 amended: preservation through the saturation phase  -/

theorem inv_fold_mark_mine {M : Finset Cell} {h w : Int} :
    ∀ (l : List Cell) {st : MinesweeperAI}, (∀ c ∈ l, c ∈ M) → SoundInv M h w st →
      SoundInv M h w (l.foldl (fun a c => a.mark_mine c) st) := by
  intro l
  induction l with
  | nil => intro st _ inv; exact inv
  | cons c t ih =>
      intro st hl inv
      rw [List.foldl_cons]
      exact ih (fun x hx => hl x (List.mem_cons_of_mem c hx))
        (inv_mark_mine (hl c (List.mem_cons_self c t)) inv)

theorem inv_fold_mark_safe {M : Finset Cell} {h w : Int} :
    ∀ (l : List Cell) {st : MinesweeperAI}, (∀ c ∈ l, c ∉ M) → SoundInv M h w st →
      SoundInv M h w (l.foldl (fun a c => a.mark_safe c) st) := by
  intro l
  induction l with
  | nil => intro st _ inv; exact inv
  | cons c t ih =>
      intro st hl inv
      rw [List.foldl_cons]
      exact ih (fun x hx => hl x (List.mem_cons_of_mem c hx))
        (inv_mark_safe (hl c (List.mem_cons_self c t)) inv)

theorem inv_set_live {M : Finset Cell} {h w : Int} {st : MinesweeperAI}
    {l' : List Nat} (hsub : ∀ id ∈ l', id ∈ st.live) (inv : SoundInv M h w st) :
    SoundInv M h w { st with live := l' } := by
  constructor
  · exact inv.height_eq
  · exact inv.width_eq
  · exact inv.mines_sub
  · exact inv.safes_not
  · exact inv.moves_sub
  · exact inv.store_true
  · intro id hid
    exact inv.live_lt id (hsub id hid)
  · intro id hid
    exact inv.live_no_mines id (hsub id hid)

theorem cells_subset_of_inter_card {M : Finset Cell} {s : Sentence}
    (htrue : sentTrue M s) (hcard : ((s.cells.card : Int)) = s.count) :
    ∀ x ∈ s.cells, x ∈ M := by
  intro x hx
  unfold sentTrue at htrue
  have hle : s.cells.card ≤ (s.cells ∩ M).card := by omega
  have heq := Finset.eq_of_subset_of_card_le Finset.inter_subset_left hle
  rw [← heq] at hx
  exact (Finset.mem_inter.mp hx).2

theorem cells_disjoint_of_count_zero {M : Finset Cell} {s : Sentence}
    (htrue : sentTrue M s) (hcount : s.count = 0) :
    ∀ x ∈ s.cells, x ∉ M := by
  intro x hx hxM
  unfold sentTrue at htrue
  rw [hcount] at htrue
  have h0 : (s.cells ∩ M).card = 0 := by omega
  rw [Finset.card_eq_zero] at h0
  have : x ∈ s.cells ∩ M := Finset.mem_inter.mpr ⟨hx, hxM⟩
  rw [h0] at this
  exact absurd this (Finset.not_mem_empty x)

theorem inv_removeEmptiesAux {M : Finset Cell} {h w : Int} :
    ∀ (snap : List Nat) {acc : Bool} {st : MinesweeperAI} {b : Bool}
      {st' : MinesweeperAI}, SoundInv M h w st →
      removeEmptiesAux snap acc st = some (b, st') → SoundInv M h w st' := by
  intro snap
  induction snap with
  | nil =>
      intro acc st b st' inv hrun
      rw [removeEmptiesAux] at hrun
      cases hrun
      exact inv
  | cons id rest ih =>
      intro acc st b st' inv hrun
      rw [removeEmptiesAux] at hrun
      by_cases h1 : (st.getS id).cells = ∅
      · rw [if_pos h1] at hrun
        cases hrem : removeFirstEq st.store st.live (st.getS id) with
        | none => rw [hrem] at hrun; cases hrun
        | some live' =>
            rw [hrem] at hrun
            exact ih (inv_set_live (removeFirstEq_mem hrem) inv) hrun
      · rw [if_neg h1] at hrun
        by_cases h2 : ((st.getS id).cells.card : Int) = (st.getS id).count
        · rw [if_pos h2] at hrun
          have hsubM := cells_subset_of_inter_card (getS_true inv id) h2
          have inv2 : SoundInv M h w
              ((sortCells (st.getS id).cells).foldl (fun a c => a.mark_mine c) st) :=
            inv_fold_mark_mine _ (fun c hcm => hsubM c (mem_sortCells.mp hcm)) inv
          cases hrem :
            removeFirstEq
              ((sortCells (st.getS id).cells).foldl (fun a c => a.mark_mine c) st).store
              ((sortCells (st.getS id).cells).foldl (fun a c => a.mark_mine c) st).live
              (((sortCells (st.getS id).cells).foldl (fun a c => a.mark_mine c) st).getS id) with
          | none => rw [hrem] at hrun; cases hrun
          | some live' =>
              rw [hrem] at hrun
              exact ih (inv_set_live (removeFirstEq_mem hrem) inv2) hrun
        · rw [if_neg h2] at hrun
          by_cases h3 : (st.getS id).count = 0
          · rw [if_pos h3] at hrun
            have hdisj := cells_disjoint_of_count_zero (getS_true inv id) h3
            have inv2 : SoundInv M h w
                ((sortCells (st.getS id).cells).foldl (fun a c => a.mark_safe c) st) :=
              inv_fold_mark_safe _ (fun c hcm => hdisj c (mem_sortCells.mp hcm)) inv
            cases hrem :
              removeFirstEq
                ((sortCells (st.getS id).cells).foldl (fun a c => a.mark_safe c) st).store
                ((sortCells (st.getS id).cells).foldl (fun a c => a.mark_safe c) st).live
                (((sortCells (st.getS id).cells).foldl (fun a c => a.mark_safe c) st).getS id) with
            | none => rw [hrem] at hrun; cases hrun
            | some live' =>
                rw [hrem] at hrun
                exact ih (inv_set_live (removeFirstEq_mem hrem) inv2) hrun
          · rw [if_neg h3] at hrun
            exact ih inv hrun

theorem inv_remove_empties {M : Finset Cell} {h w : Int} {st : MinesweeperAI}
    {b : Bool} {st' : MinesweeperAI} (inv : SoundInv M h w st)
    (hrun : st.remove_empties_and_safes_and_Mines = some (b, st')) :
    SoundInv M h w st' :=
  inv_removeEmptiesAux st.live inv hrun

theorem inv_updateOneCell_safe {M : Finset Cell} {h w : Int} {c : Cell}
    {p : Bool × MinesweeperAI} (hc : c ∉ M) (inv : SoundInv M h w p.2) :
    SoundInv M h w (updateOneCell c p).2 :=
  inv_cascade_safe hc inv

theorem updateOneCell_mines (c : Cell) (p : Bool × MinesweeperAI) :
    (updateOneCell c p).2.mines = p.2.mines := rfl

theorem updateOneCell_eq_of_mine {M : Finset Cell} {h w : Int} {c : Cell}
    {p : Bool × MinesweeperAI} (hc : c ∈ p.2.mines) (inv : SoundInv M h w p.2) :
    (updateOneCell c p).2 = p.2 := by
  show ({ p.2 with store := cascadeFrom (Sentence.mark_safe c) p.2.live 0 p.2.store } :
      MinesweeperAI) = p.2
  have hstore : cascadeFrom (Sentence.mark_safe c) p.2.live 0 p.2.store = p.2.store := by
    apply cascadeFrom_eq_self
    intro k hk hkl
    have hkl' : k ∈ p.2.live := by simpa using hkl
    have h0 := inv.live_no_mines k hkl'
    have hnot : c ∉ (p.2.store.getD k ⟨∅, 0⟩).cells := by
      intro hmem
      rw [Finset.eq_empty_iff_forall_not_mem] at h0
      exact h0 c (Finset.mem_inter.mpr ⟨hmem, hc⟩)
    show Sentence.mark_safe c (p.2.store.getD k ⟨∅, 0⟩) = p.2.store.getD k ⟨∅, 0⟩
    unfold Sentence.mark_safe
    rw [if_neg hnot]
  rw [hstore]

theorem inv_fold_updateOneCell_safes {M : Finset Cell} {h w : Int} :
    ∀ (l : List Cell) (p : Bool × MinesweeperAI), (∀ c ∈ l, c ∉ M) →
      SoundInv M h w p.2 →
      SoundInv M h w (List.foldl (fun q c => updateOneCell c q) p l).2 := by
  intro l
  induction l with
  | nil => intro p _ inv; exact inv
  | cons c t ih =>
      intro p hl inv
      rw [List.foldl_cons]
      exact ih _ (fun x hx => hl x (List.mem_cons_of_mem c hx))
        (inv_updateOneCell_safe (hl c (List.mem_cons_self c t)) inv)

theorem fold_updateOneCell_mines_const :
    ∀ (l : List Cell) (p : Bool × MinesweeperAI),
      (List.foldl (fun q c => updateOneCell c q) p l).2.mines = p.2.mines := by
  intro l
  induction l with
  | nil => intro p; rfl
  | cons c t ih =>
      intro p
      rw [List.foldl_cons, ih, updateOneCell_mines]

theorem fold_updateOneCell_mines_eq {M : Finset Cell} {h w : Int} :
    ∀ (l : List Cell) (p : Bool × MinesweeperAI), (∀ c ∈ l, c ∈ p.2.mines) →
      SoundInv M h w p.2 →
      (List.foldl (fun q c => updateOneCell c q) p l).2 = p.2 := by
  intro l
  induction l with
  | nil => intro p _ _; rfl
  | cons c t ih =>
      intro p hl inv
      rw [List.foldl_cons]
      have heq : (updateOneCell c p).2 = p.2 :=
        updateOneCell_eq_of_mine (hl c (List.mem_cons_self c t)) inv
      have hrest := ih (updateOneCell c p)
        (fun x hx => by rw [heq]; exact hl x (List.mem_cons_of_mem c hx))
        (by rw [heq]; exact inv)
      rw [hrest, heq]

theorem inv_updateKB {M : Finset Cell} {h w : Int} {st : MinesweeperAI}
    (inv : SoundInv M h w st) :
    SoundInv M h w (st.update_mines_and_safes_in_KB).2 := by
  unfold MinesweeperAI.update_mines_and_safes_in_KB
  have inv1 : SoundInv M h w
      ((sortCells st.safes).foldl (fun q c => updateOneCell c q) (false, st)).2 :=
    inv_fold_updateOneCell_safes _ _
      (fun c hcm => inv.safes_not c (mem_sortCells.mp hcm)) inv
  have hmines :
      ((sortCells st.safes).foldl (fun q c => updateOneCell c q) (false, st)).2.mines =
        st.mines :=
    fold_updateOneCell_mines_const _ _
  have heq :
      ((sortCells st.mines).foldl (fun q c => updateOneCell c q)
        ((sortCells st.safes).foldl (fun q c => updateOneCell c q) (false, st))).2 =
      ((sortCells st.safes).foldl (fun q c => updateOneCell c q) (false, st)).2 :=
    fold_updateOneCell_mines_eq _ _
      (fun c hcm => by rw [hmines]; exact mem_sortCells.mp hcm) inv1
  rw [heq]
  exact inv1

theorem inv_fixLoop {M : Finset Cell} {h w : Int} :
    ∀ (fuel : Nat) {st st' : MinesweeperAI},
      SoundInv M h w st → fixLoop fuel st = some st' → SoundInv M h w st' := by
  intro fuel
  induction fuel with
  | zero => intro st st' _ hrun; cases hrun
  | succ fuel ih =>
      intro st st' inv hrun
      rw [fixLoop] at hrun
      split at hrun
      · cases hrun
      · rename_i b st1 hrem
        have inv1 := inv_remove_empties inv hrem
        split at hrun
        · exact ih inv1 hrun
        · split at hrun
          · exact ih (inv_updateKB inv1) hrun
          · cases hrun
            exact inv_updateKB inv1

/-!  ### C3, C4 amended: preservation through the expansion phase  -/

theorem inv_append_sentence {M : Finset Cell} {h w : Int} {st : MinesweeperAI}
    {s : Sentence} (inv : SoundInv M h w st) (htrue : sentTrue M s)
    (hnm : s.cells ∩ st.mines = ∅) :
    SoundInv M h w
      { st with store := st.store ++ [s], live := st.live ++ [st.store.length] } := by
  constructor
  · exact inv.height_eq
  · exact inv.width_eq
  · exact inv.mines_sub
  · exact inv.safes_not
  · exact inv.moves_sub
  · intro t ht
    rcases List.mem_append.mp ht with h1 | h2
    · exact inv.store_true t h1
    · have : t = s := by simpa using h2
      subst this
      exact htrue
  · intro id hid
    show id < (st.store ++ [s]).length
    rw [List.length_append]
    rcases List.mem_append.mp hid with h1 | h2
    · have := inv.live_lt id h1
      simp only [List.length_singleton]
      omega
    · have : id = st.store.length := by simpa using h2
      subst this
      simp
  · intro id hid
    show ((st.store ++ [s]).getD id ⟨∅, 0⟩).cells ∩ st.mines = ∅
    rcases List.mem_append.mp hid with h1 | h2
    · rw [getD_append_lt _ _ _ _ (inv.live_lt id h1)]
      exact inv.live_no_mines id h1
    · have : id = st.store.length := by simpa using h2
      subst this
      rw [getD_append_len]
      exact hnm

theorem sentTrue_diff {M : Finset Cell} {A B : Sentence}
    (hA : sentTrue M A) (hB : sentTrue M B) (hsub : B.cells ⊆ A.cells) :
    sentTrue M ⟨A.cells \ B.cells, A.count - B.count⟩ := by
  unfold sentTrue at *
  show (((A.cells \ B.cells) ∩ M).card : Int) = A.count - B.count
  have h1 : (A.cells \ B.cells) ∩ M = (A.cells ∩ M) \ (B.cells ∩ M) := by
    ext a
    simp only [Finset.mem_inter, Finset.mem_sdiff]
    tauto
  have h2 : B.cells ∩ M ⊆ A.cells ∩ M :=
    Finset.inter_subset_inter hsub (Finset.Subset.refl M)
  have h3 := Finset.card_le_card h2
  rw [h1, Finset.card_sdiff h2]
  omega

theorem inv_expandInner {M : Finset Cell} {h w : Int} :
    ∀ (fuel : Nat) {i iMax j jMax : Int} {st : MinesweeperAI}
      {out : Int × Int × Int × MinesweeperAI},
      SoundInv M h w st → expandInner fuel i iMax j jMax st = some out →
      SoundInv M h w out.2.2.2 := by
  intro fuel
  induction fuel with
  | zero =>
      intro i iMax j jMax st out _ hrun
      cases hrun
  | succ fuel ih =>
      intro i iMax j jMax st out inv hrun
      rw [expandInner] at hrun
      split at hrun
      · split at hrun
        · exact ih inv hrun
        · split at hrun
          · rename_i idA idB hgA hgB
            split at hrun
            · split at hrun
              · cases hrun
              · rename_i live' hrem
                exact ih (inv_set_live (removeFirstEq_mem hrem) inv) hrun
            · split at hrun
              · rename_i hgets hcond
                have hnew : sentTrue M
                    ⟨(st.getS idA).cells \ (st.getS idB).cells,
                      (st.getS idA).count - (st.getS idB).count⟩ :=
                  sentTrue_diff (getS_true inv idA) (getS_true inv idB) hcond.1
                have hnm :
                    ((st.getS idA).cells \ (st.getS idB).cells) ∩ st.mines = ∅ := by
                  have h0 := inv.live_no_mines idA (pyGet_mem hgA)
                  have hsub :
                      ((st.getS idA).cells \ (st.getS idB).cells) ∩ st.mines ⊆
                        (st.getS idA).cells ∩ st.mines :=
                    Finset.inter_subset_inter Finset.sdiff_subset (Finset.Subset.refl _)
                  rw [h0] at hsub
                  exact Finset.subset_empty.mp hsub
                exact ih (inv_append_sentence inv hnew hnm) hrun
              · exact ih inv hrun
          · cases hrun
      · cases hrun
        exact inv

theorem inv_expandOuter {M : Finset Cell} {h w : Int} :
    ∀ (fuel : Nat) {i iMax j : Int} {st st' : MinesweeperAI},
      SoundInv M h w st → expandOuter fuel i iMax j st = some st' →
      SoundInv M h w st' := by
  intro fuel
  induction fuel with
  | zero =>
      intro i iMax j st st' _ hrun
      cases hrun
  | succ fuel ih =>
      intro i iMax j st st' inv hrun
      rw [expandOuter] at hrun
      split at hrun
      · split at hrun
        · cases hrun
        · rename_i i' iMax' j' st1 hinner
          exact ih (inv_expandInner fuel inv hinner) hrun
      · cases hrun
        exact inv

/-!  ### C3, C4 amended: the new observation sentence is true of `M`  -/

theorem inv_addSentence {M : Finset Cell} {h w : Int} {st : MinesweeperAI}
    {cell : Cell} {count : Int} (inv : SoundInv M h w st)
    (hcount : count = ((inBoundsNbrs h w cell ∩ M).card : Int)) :
    SoundInv M h w (addSentence cell count st) := by
  have hN : inBoundsNbrs st.height st.width cell = inBoundsNbrs h w cell := by
    rw [inv.height_eq, inv.width_eq]
  have hminesM : st.mines ⊆ M := fun a ha => inv.mines_sub a ha
  have h1 : (inBoundsNbrs h w cell).filter
        (fun c => c ∉ st.mines ∧ c ∉ st.moves_made) ∩ M =
      (inBoundsNbrs h w cell ∩ M) \ st.mines := by
    ext a
    simp only [Finset.mem_inter, Finset.mem_filter, Finset.mem_sdiff]
    constructor
    · rintro ⟨⟨haN, hamine, _⟩, haM⟩
      exact ⟨⟨haN, haM⟩, hamine⟩
    · rintro ⟨⟨haN, haM⟩, hamine⟩
      refine ⟨⟨haN, hamine, ?_⟩, haM⟩
      intro hmv
      exact (inv.safes_not a (inv.moves_sub a hmv)) haM
  have h2 : (inBoundsNbrs h w cell ∩ M) \ st.mines =
      (inBoundsNbrs h w cell ∩ M) \ ((inBoundsNbrs h w cell ∩ M) ∩ st.mines) := by
    ext a
    simp only [Finset.mem_sdiff, Finset.mem_inter]
    tauto
  have h3 : (inBoundsNbrs h w cell ∩ M) ∩ st.mines = inBoundsNbrs h w cell ∩ st.mines := by
    ext a
    simp only [Finset.mem_inter]
    constructor
    · rintro ⟨⟨haN, _⟩, ham⟩
      exact ⟨haN, ham⟩
    · rintro ⟨haN, ham⟩
      exact ⟨⟨haN, hminesM ham⟩, ham⟩
  have h4 : (inBoundsNbrs h w cell).filter (fun c => c ∈ st.mines) =
      inBoundsNbrs h w cell ∩ st.mines := by
    ext a
    simp [Finset.mem_filter, Finset.mem_inter]
  have h5 : inBoundsNbrs h w cell ∩ st.mines ⊆ inBoundsNbrs h w cell ∩ M :=
    Finset.inter_subset_inter (Finset.Subset.refl _) hminesM
  have hsb : (inBoundsNbrs h w cell ∩ M) ∩ st.mines ⊆ inBoundsNbrs h w cell ∩ M :=
    Finset.inter_subset_left
  have htrue : sentTrue M
      ⟨(inBoundsNbrs st.height st.width cell).filter
          (fun c => c ∉ st.mines ∧ c ∉ st.moves_made),
        count - (((inBoundsNbrs st.height st.width cell).filter
          (fun c => c ∈ st.mines)).card : Int)⟩ := by
    unfold sentTrue
    show (((inBoundsNbrs st.height st.width cell).filter
        (fun c => c ∉ st.mines ∧ c ∉ st.moves_made) ∩ M).card : Int) =
      count - (((inBoundsNbrs st.height st.width cell).filter
        (fun c => c ∈ st.mines)).card : Int)
    rw [hN, h1, h2, h3, Finset.card_sdiff h5, h4, hcount]
    have hle := Finset.card_le_card h5
    omega
  have hnm : (inBoundsNbrs st.height st.width cell).filter
      (fun c => c ∉ st.mines ∧ c ∉ st.moves_made) ∩ st.mines = ∅ := by
    rw [Finset.eq_empty_iff_forall_not_mem]
    intro a ha
    rw [Finset.mem_inter, Finset.mem_filter] at ha
    exact ha.1.2.1 ha.2
  exact inv_append_sentence inv htrue hnm

/-!  ### C3, C4 amended: preservation through whole calls and runs  -/

theorem inv_move_and_safe {M : Finset Cell} {h w : Int} {st : MinesweeperAI}
    {cell : Cell} (hcell : cell ∉ M) (inv : SoundInv M h w st) :
    SoundInv M h w (({ st with moves_made := insert cell st.moves_made }).mark_safe cell) := by
  constructor
  · exact inv.height_eq
  · exact inv.width_eq
  · exact inv.mines_sub
  · intro x hx
    rcases Finset.mem_insert.mp hx with rfl | hx'
    · exact hcell
    · exact inv.safes_not x hx'
  · intro x hx
    rcases Finset.mem_insert.mp hx with rfl | hx'
    · exact Finset.mem_insert_self x st.safes
    · exact Finset.mem_insert_of_mem (inv.moves_sub x hx')
  · exact store_true_cascade (fun s => sentTrue_mark_safe hcell) inv.store_true
  · intro id hid
    show id < (cascadeFrom (Sentence.mark_safe cell) st.live 0 st.store).length
    rw [cascadeFrom_length]
    exact inv.live_lt id hid
  · intro id hid
    show ((cascadeFrom (Sentence.mark_safe cell) st.live 0 st.store).getD id ⟨∅, 0⟩).cells ∩
        st.mines = ∅
    exact live_no_mines_cascade (mark_safe_cells_subset cell) inv.live_no_mines id hid

theorem inv_add_knowledge {M : Finset Cell} {h w : Int} {fuel : Nat}
    {cell : Cell} {count : Int} {st st' : MinesweeperAI}
    (hobs : obsOK M h w (cell, count)) (inv : SoundInv M h w st)
    (hrun : st.add_knowledge fuel cell count = some st') : SoundInv M h w st' := by
  obtain ⟨hcell, hcount⟩ := hobs
  rw [MinesweeperAI.add_knowledge] at hrun
  have inv2 : SoundInv M h w
      (addSentence cell count
        (({ st with moves_made := insert cell st.moves_made }).mark_safe cell)) :=
    inv_addSentence (inv_move_and_safe hcell inv) hcount
  split at hrun
  · cases hrun
  · rename_i st4 hfix
    have inv4 := inv_fixLoop fuel inv2 hfix
    split at hrun
    · cases hrun
    · rename_i st5 hexp
      exact inv_fixLoop fuel (inv_expandOuter fuel inv4 hexp) hrun

theorem inv_runObs {M : Finset Cell} {h w : Int} :
    ∀ (obs : List (Cell × Int)) (fuel : Nat) {st st' : MinesweeperAI},
      (∀ p ∈ obs, obsOK M h w p) → SoundInv M h w st →
      runObs fuel obs st = some st' → SoundInv M h w st' := by
  intro obs
  induction obs with
  | nil =>
      intro fuel st st' _ inv hrun
      rw [runObs] at hrun
      cases hrun
      exact inv
  | cons p rest ih =>
      intro fuel st st' hobs inv hrun
      obtain ⟨c, n⟩ := p
      rw [runObs] at hrun
      split at hrun
      · cases hrun
      · rename_i st1 hadd
        exact ih fuel (fun q hq => hobs q (List.mem_cons_of_mem _ hq))
          (inv_add_knowledge (hobs (c, n) (List.mem_cons_self _ _)) inv hadd) hrun

theorem inv_runOps {M : Finset Cell} {h w : Int} :
    ∀ (ops : List AIOp) (fuel : Nat) {st st' : MinesweeperAI},
      (∀ op ∈ ops, opOK M h w op) → SoundInv M h w st →
      runOps fuel ops st = some st' → SoundInv M h w st' := by
  intro ops
  induction ops with
  | nil =>
      intro fuel st st' _ inv hrun
      rw [runOps] at hrun
      cases hrun
      exact inv
  | cons op rest ih =>
      intro fuel st st' hops inv hrun
      cases op with
      | addK c n =>
          rw [runOps] at hrun
          split at hrun
          · cases hrun
          · rename_i st1 hadd
            exact ih fuel (fun q hq => hops q (List.mem_cons_of_mem _ hq))
              (inv_add_knowledge (hops (AIOp.addK c n) (List.mem_cons_self _ _)) inv hadd)
              hrun
      | mkMine c =>
          rw [runOps] at hrun
          exact ih fuel (fun q hq => hops q (List.mem_cons_of_mem _ hq))
            (inv_mark_mine (hops (AIOp.mkMine c) (List.mem_cons_self _ _)) inv) hrun
      | mkSafe c =>
          rw [runOps] at hrun
          exact ih fuel (fun q hq => hops q (List.mem_cons_of_mem _ hq))
            (inv_mark_safe (hops (AIOp.mkSafe c) (List.mem_cons_self _ _)) inv) hrun

theorem inv_mkAI (M : Finset Cell) (h w : Int) : SoundInv M h w (mkAI h w) := by
  constructor <;> simp [mkAI, MinesweeperAI.getS]

/-- C3 amended: for every Controller state reachable from a fresh controller
by a sequence of `add_knowledge` calls whose observations are consistent
with a single mine set `M` (the revealed cell is not a mine and the count is
the number of mines among its in-bounds neighbours), every live Constraint
satisfies `0 ≤ count ≤ |cells|`. -/
theorem c3_invariant_of_consistent_runs (M : Finset Cell) (h w : Int)
    (fuel : Nat) (obs : List (Cell × Int)) (st' : MinesweeperAI)
    (hobs : ∀ p ∈ obs, obsOK M h w p)
    (hrun : runObs fuel obs (mkAI h w) = some st') :
    ∀ id ∈ st'.live, 0 ≤ (st'.getS id).count ∧
      (st'.getS id).count ≤ ((st'.getS id).cells.card : Int) := by
  have inv := inv_runObs obs fuel hobs (inv_mkAI M h w) hrun
  intro id _
  have htrue := getS_true inv id
  unfold sentTrue at htrue
  have hle : ((st'.getS id).cells ∩ M).card ≤ (st'.getS id).cells.card :=
    Finset.card_le_card Finset.inter_subset_left
  omega

/-- C3 amended, witness: the consistent single-observation run recorded in
`c3WitSt` (mine set `{(0,0)}`, board 3×3, observation `((1,1), 1)`) leaves a
live Constraint whose count `1` lies within `[0, 8]`. -/
theorem c3_invariant_witness :
    0 ≤ (c3WitSt.getS 0).count ∧
      (c3WitSt.getS 0).count ≤ ((c3WitSt.getS 0).cells.card : Int) :=
  c3_invariant_of_consistent_runs {(0, 0)} 3 3 30 [((1, 1), 1)] c3WitSt
    (by decide) (optAIEqB_iff.mp (by rfl)) 0 (by decide)

/-- C4 amended: for every Controller state reachable from a fresh controller
by `add_knowledge`, `mark_mine` and `mark_safe` calls that are consistent
with a single mine set `M` (observations as in C3; `mark_mine` only on cells
of `M`, `mark_safe` only on cells outside `M`), the confirmed mine set and
the confirmed safe set are disjoint. -/
theorem c4_disjoint_of_consistent_runs (M : Finset Cell) (h w : Int)
    (fuel : Nat) (ops : List AIOp) (st' : MinesweeperAI)
    (hops : ∀ op ∈ ops, opOK M h w op)
    (hrun : runOps fuel ops (mkAI h w) = some st') :
    st'.mines ∩ st'.safes = ∅ := by
  have inv := inv_runOps ops fuel hops (inv_mkAI M h w) hrun
  rw [Finset.eq_empty_iff_forall_not_mem]
  intro a ha
  rw [Finset.mem_inter] at ha
  exact inv.safes_not a ha.2 (inv.mines_sub a ha.1)

/-- C4 amended, witness: the consistent run `mark_mine((0,0))`;
`add_knowledge((2,2), 0)`; `mark_safe((1,1))` for mine set `{(0,0)}` on a
3×3 board ends in the state `c4WitSt`, whose `mines` and `safes` are
disjoint. -/
theorem c4_disjoint_witness : c4WitSt.mines ∩ c4WitSt.safes = ∅ :=
  c4_disjoint_of_consistent_runs {(0, 0)} 3 3 30
    [AIOp.mkMine (0, 0), AIOp.addK (2, 2) 0, AIOp.mkSafe (1, 1)] c4WitSt
    (by decide) (optAIEqB_iff.mp (by rfl))

/-!  ### The saturation branch conditions, in terms of the source's
`known_mines` / `known_safes` (the branch guards of
`remove_empties_and_safes_and_Mines` inline their truthiness)  -/

theorem known_mines_eq {s : Sentence} (h : (s.cells.card : Int) = s.count) :
    s.known_mines = s.cells := by
  unfold Sentence.known_mines
  rw [if_pos h]

theorem known_mines_eq_empty {s : Sentence} (h : ¬ (s.cells.card : Int) = s.count) :
    s.known_mines = ∅ := by
  unfold Sentence.known_mines
  rw [if_neg h]

theorem known_safes_eq {s : Sentence} (h : s.count = 0) : s.known_safes = s.cells := by
  unfold Sentence.known_safes
  rw [if_pos h]

theorem known_safes_eq_empty {s : Sentence} (h : ¬ s.count = 0) : s.known_safes = ∅ := by
  unfold Sentence.known_safes
  rw [if_neg h]
